import Mathlib

/-
Verification of the document-indexer repository (Go).

Embedding conventions:
* Go maps are modelled as insertion-ordered association lists
  (List (key × value)).  Lookups and per-key updates follow Go map
  semantics.  Go's map iteration order is unspecified; every property
  proved below is either independent of the iteration order or concerns
  a result that the program sorts afterwards, so the list order is a
  faithful stand-in.
* float64 arithmetic is modelled as exact arithmetic: term frequencies
  (integer divisions) live in ℚ, idf and tf-idf scores (which involve
  math.Log) live in ℝ with Real.log.
* File reads (os.Open + bufio.Scanner in Frequencies) are modelled by an
  oracle readLines : String → Option (List String); None models a read
  error, in which case the goroutine publishes nothing to the channel.
* The concurrent fan-out/fan-in of ReadDirectory delivers the per-document
  results to the reducer in an arbitrary order; deliveries are modelled as
  an arbitrary permutation of the extraction results.
* slices.SortFunc is an unstable sort, but the comparator used by
  RelevanceLookup is a strict total order on the candidate entries
  (distinct document IDs), so the sorted permutation is unique; we embed
  it with an insertion sort over the corresponding boolean "less or equal"
  relation, which produces that same unique result.
-/

/-- Characters matched by the character class [a-zA-Z] of WordRegex. -/
def isLetterChar (c : Char) : Bool :=
  ('a' ≤ c && c ≤ 'z') || ('A' ≤ c && c ≤ 'Z')

/-- The apostrophe character, one of the two joiners in WordRegex. -/
def apoChar : Char := Char.ofNat 39

/-- Characters matched by the character class ['-] of WordRegex. -/
def isSepChar (c : Char) : Bool := c = apoChar || c = '-'

/-- ASCII lower-casing of one character.  strings.ToLower is full Unicode,
but every character of a WordRegex match is in [a-zA-Z'-], on which the
two agree. -/
def lowerChar (c : Char) : Char :=
  if 'A' ≤ c && c ≤ 'Z' then Char.ofNat (c.toNat + 32) else c

/-- Longest prefix of letters, together with the rest of the input.
Embeds the greedy [a-zA-Z]+ step of WordRegex matching. -/
def takeLetters : List Char → List Char × List Char
  | [] => ([], [])
  | c :: cs =>
      if isLetterChar c then
        ((c :: (takeLetters cs).1), (takeLetters cs).2)
      else ([], c :: cs)

/-- Greedy repetition of the (['-][a-zA-Z]+) group of WordRegex: consume
a separator followed by letters as long as possible.  Each iteration
consumes at least two characters, so fuel bounded below by the input
length is enough. -/
def wordTail : Nat → List Char → List Char × List Char
  | 0, cs => ([], cs)
  | fuel + 1, s :: c :: cs =>
      if isSepChar s && isLetterChar c then
        let p := takeLetters (c :: cs)
        let q := wordTail fuel p.2
        (s :: (p.1 ++ q.1), q.2)
      else ([], s :: c :: cs)
  | _ + 1, cs => ([], cs)

/-- Scan a line left to right, collecting the successive non-overlapping
leftmost WordRegex matches, exactly as Go's FindAllString does for this
regular expression: skip characters until a letter, then take the maximal
letters+(sep letters+)* run, then continue after it. -/
def tokenizeAux : Nat → List Char → List (List Char)
  | 0, _ => []
  | _ + 1, [] => []
  | fuel + 1, c :: cs =>
      if isLetterChar c then
        let p := takeLetters (c :: cs)
        let q := wordTail fuel p.2
        (p.1 ++ q.1) :: tokenizeAux fuel q.2
      else tokenizeAux fuel cs

/-- WordRegex.FindAllString(line, -1): the raw (not yet lower-cased)
matches of the word pattern in a line, left to right. -/
def findWords (line : String) : List (List Char) :=
  tokenizeAux (line.data.length + 1) line.data

/-- Lower-case a raw match, as strings.ToLower does in Frequencies. -/
def lowerWord (w : List Char) : String := String.mk (w.map lowerChar)

/-- The tokenizer of the spec: extract the word-pattern matches of a line
in order and lower-case each, without deduplicating. -/
def tokenize (line : String) : List String :=
  (findWords line).map lowerWord

/-- DocTermFrequency: map from term to occurrence count (association
list embedding of the Go map). -/
abbrev DocTermFrequency := List (String × Nat)

/-- SearchEngine: map from DocumentID (file path) to that document's
DocTermFrequency. -/
abbrev SearchEngine := List (String × DocTermFrequency)

/-- Go map read m[k]: value of the first (only) entry with the given key. -/
def lookupKey {A : Type} : List (String × A) → String → Option A
  | [], _ => none
  | p :: ps, k => if p.1 = k then some p.2 else lookupKey ps k

/-- Go map write m[k] = v: overwrite the entry if the key is present,
otherwise add a new entry. -/
def setKey {A : Type} (m : List (String × A)) (k : String) (v : A) :
    List (String × A) :=
  if (lookupKey m k).isSome then
    m.map (fun p => if p.1 = k then (k, v) else p)
  else m ++ [(k, v)]

/-- One step of word counting in Frequencies: increment the count if the
word is present, else store 1. -/
def bumpWord (m : DocTermFrequency) (w : String) : DocTermFrequency :=
  match lookupKey m w with
  | some count => setKey m w (count + 1)
  | none => setKey m w 1

/-- The word-counting section of Frequencies: tokenize every line and
count the lower-cased words, in reading order. -/
def wordCounts (lines : List String) : DocTermFrequency :=
  (lines.flatMap tokenize).foldl bumpWord []

/-- Frequencies: read the document via the readLines oracle; on a read
error publish nothing (the goroutine logs and returns), otherwise publish
the (DocumentID, DocTermFrequency) pair on the channel. -/
def Frequencies (readLines : String → Option (List String))
    (doc : String) : Option (String × DocTermFrequency) :=
  (readLines doc).map (fun lines => (doc, wordCounts lines))

/-- The multiset of messages produced by the extraction goroutines of
ReadDirectory: one per successfully read file, none for failed reads. -/
def extractAll (files : List String)
    (readLines : String → Option (List String)) :
    List (String × DocTermFrequency) :=
  files.filterMap (Frequencies readLines)

/-- ReduceDocuments: drain the channel, writing each delivered mapping
into the search-engine map (last write wins). -/
def ReduceDocuments (deliveries : List (String × DocTermFrequency)) :
    SearchEngine :=
  deliveries.foldl (fun se p => setKey se p.1 p.2) []

/-- IndexLookup: the documents whose term map contains the term as a key,
in iteration order. -/
def IndexLookup (se : SearchEngine) (term : String) : List String :=
  (se.filter (fun p => (lookupKey p.2 term).isSome)).map Prod.fst

/-- The loop of InverseDocumentFrequency counting how many documents
contain the term. -/
def numDocsContaining (se : SearchEngine) (term : String) : Nat :=
  se.countP (fun p => (lookupKey p.2 term).isSome)

/-- InverseDocumentFrequency: math.Log(numDocuments / numContaining),
with float64 modelled as ℝ.  (When numContaining is zero Go produces
+Inf; that case is unreachable from RelevanceLookup, whose candidate
documents all contain the term.) -/
noncomputable def InverseDocumentFrequency (se : SearchEngine)
    (term : String) : ℝ :=
  Real.log ((se.length : ℝ) / (numDocsContaining se term : ℝ))

/-- Sum of all counts of a document's term map, as in the loop of
TermFrequency. -/
def totalCount (terms : DocTermFrequency) : Nat :=
  (terms.map Prod.snd).sum

/-- TermFrequency: error if the document is not in the index; 0 if the
term is absent from the document; otherwise count divided by the total
term count (float64 division modelled exactly in ℚ). -/
def TermFrequency (se : SearchEngine) (term doc : String) :
    Except String ℚ :=
  match lookupKey se doc with
  | none => .error "tried to determine the TermFrequency for a document that does not exist"
  | some terms =>
      match lookupKey terms term with
      | none => .ok 0
      | some termCount => .ok ((termCount : ℚ) / (totalCount terms : ℚ))

/-- CountIdf: tf times idf, propagating the TermFrequency error. -/
noncomputable def CountIdf (se : SearchEngine) (term doc : String) :
    Except String ℝ :=
  match TermFrequency se term doc with
  | .error e => .error e
  | .ok tf => .ok ((tf : ℝ) * InverseDocumentFrequency se term)

/-- Lexicographic comparison of character lists, the order Go uses on
strings (byte order and code-point order agree on valid UTF-8). -/
def strLtL : List Char → List Char → Bool
  | [], [] => false
  | [], _ :: _ => true
  | _ :: _, [] => false
  | a :: as, b :: bs =>
      if a < b then true else if b < a then false else strLtL as bs

/-- Go string comparison a < b. -/
def strLt (a b : String) : Bool := strLtL a.data b.data

/-- Go string comparison a ≤ b (not b < a). -/
def strLE (a b : String) : Bool := ! strLt b a

/-- The sort comparator of RelevanceLookup as a boolean "less or equal":
cmp returns -1 on smaller tfidf, +1 on larger, and otherwise falls back
to the document ID.  (The comparator's panic on a fully equal pair is
unreachable: the candidate list never repeats a document ID.) -/
noncomputable def tfidfLE (a b : String × ℝ) : Bool :=
  if a.2 < b.2 then true else if b.2 < a.2 then false else strLE a.1 b.1

/-- Insert into a sorted list, first position where le holds. -/
def insertLE {α : Type} (le : α → α → Bool) (x : α) : List α → List α
  | [] => [x]
  | y :: ys => if le x y then x :: y :: ys else y :: insertLE le x ys

/-- Insertion sort by a boolean "less or equal".  For the total
antisymmetric comparator of RelevanceLookup this computes the unique
sorted permutation, hence the result of slices.SortFunc. -/
def sortLE {α : Type} (le : α → α → Bool) : List α → List α
  | [] => []
  | x :: xs => insertLE le x (sortLE le xs)

/-- The scoring loop of RelevanceLookup: compute CountIdf for each
candidate document in turn, aborting with the first error. -/
noncomputable def scoreDocs (se : SearchEngine) (term : String) :
    List String → Except String (List (String × ℝ))
  | [] => .ok []
  | d :: ds =>
      match CountIdf se term d with
      | .error e => .error e
      | .ok x =>
          match scoreDocs se term ds with
          | .error e => .error e
          | .ok rest => .ok ((d, x) :: rest)

/-- RelevanceLookup: score the candidate documents, sort them with the
tfidf-then-ID comparator in ascending comparator order (slices.SortFunc),
and return the document IDs in that order. -/
noncomputable def RelevanceLookup (se : SearchEngine) (term : String) :
    Except String (List String) :=
  match scoreDocs se term (IndexLookup se term) with
  | .error e => .error e
  | .ok docs => .ok ((sortLE tfidfLE docs).map Prod.fst)

/-- Keys of an association-list map, in iteration order. -/
def keysOf {A : Type} (m : List (String × A)) : List String :=
  m.map Prod.fst

/-- Modelled from the spec (§4.4): the value carried by the last delivery
of a given DocumentID, used to state the last-write-wins contract of the
Reducer. -/
def lastValue {A : Type} : List (String × A) → String → Option A
  | [], _ => none
  | p :: ps, k =>
      match lastValue ps k with
      | some v => some v
      | none => if p.1 = k then some p.2 else none

/-- The documents of the index containing a term, as the spec writes the
idf denominator; used to state that idf is computed over the full index. -/
def containingDocs (se : SearchEngine) (term : String) : SearchEngine :=
  se.filter (fun p => (lookupKey p.2 term).isSome)

/-- Shape of the repeated group (['-][a-zA-Z]+)* of WordRegex. -/
inductive TailShape : List Char → Prop
  | nil : TailShape []
  | seg (s : Char) (u rest : List Char) :
      isSepChar s = true → u ≠ [] → (∀ c ∈ u, isLetterChar c = true) →
      TailShape rest → TailShape (s :: (u ++ rest))

/-- Shape of a full WordRegex match [a-zA-Z]+(['-][a-zA-Z]+)*. -/
def WordShape (w : List Char) : Prop :=
  ∃ u rest, u ≠ [] ∧ (∀ c ∈ u, isLetterChar c = true) ∧
    TailShape rest ∧ w = u ++ rest

/-- Looking up a key appearing in the list succeeds. -/
theorem lookupKey_isSome_of_mem {A : Type} {m : List (String × A)} {k : String} {v : A}
    (h : (k, v) ∈ m) : (lookupKey m k).isSome := by
  induction m with
  | nil => cases h
  | cons p ps ih =>
      rcases List.mem_cons.mp h with h | h
      · simp [lookupKey, ← h]
      · by_cases hk : p.1 = k <;> simp [lookupKey, hk, ih h]

/-- A successful lookup returns an entry of the list. -/
theorem lookupKey_mem {A : Type} {m : List (String × A)} {k : String} {v : A}
    (h : lookupKey m k = some v) : (k, v) ∈ m := by
  induction m with
  | nil => cases h
  | cons p ps ih =>
      by_cases hk : p.1 = k
      · simp only [lookupKey, if_pos hk] at h
        obtain rfl : p.2 = v := by injection h
        subst hk
        exact List.mem_cons_self _ _
      · simp only [lookupKey, if_neg hk] at h
        exact List.mem_cons_of_mem _ (ih h)

/-- Lookup succeeds exactly when the key appears among the keys. -/
theorem lookupKey_isSome_iff {A : Type} (m : List (String × A)) (k : String) :
    (lookupKey m k).isSome ↔ k ∈ keysOf m := by
  induction m with
  | nil => simp [lookupKey, keysOf]
  | cons p ps ih =>
      by_cases hk : p.1 = k
      · simp [lookupKey, keysOf, hk]
      · simp only [keysOf, List.map_cons, List.mem_cons, lookupKey, if_neg hk]
        rw [ih]
        constructor
        · intro h
          exact Or.inr h
        · rintro (h | h)
          · exact absurd h.symm hk
          · exact h

/-- Lookup in a concatenation tries the left part first. -/
theorem lookupKey_append {A : Type} (m1 m2 : List (String × A)) (k : String) :
    lookupKey (m1 ++ m2) k =
      match lookupKey m1 k with
      | some v => some v
      | none => lookupKey m2 k := by
  induction m1 with
  | nil => simp [lookupKey]
  | cons p ps ih =>
      by_cases h : p.1 = k <;> simp [lookupKey, h, ih]

/-- Overwriting every entry of a key changes that key's lookup. -/
theorem lookupKey_map_set_same {A : Type} (m : List (String × A)) (k : String) (v : A) :
    lookupKey (m.map (fun p => if p.1 = k then (k, v) else p)) k =
      (lookupKey m k).map (fun _ => v) := by
  induction m with
  | nil => simp [lookupKey]
  | cons p ps ih =>
      by_cases h : p.1 = k
      · simp [lookupKey, h]
      · simp [lookupKey, h, ih]

/-- Overwriting the entries of one key leaves other lookups unchanged. -/
theorem lookupKey_map_set_other {A : Type} (m : List (String × A)) {k k2 : String} (v : A)
    (hne : k ≠ k2) :
    lookupKey (m.map (fun p => if p.1 = k then (k, v) else p)) k2 = lookupKey m k2 := by
  induction m with
  | nil => rfl
  | cons p ps ih =>
      by_cases h : p.1 = k
      · simp [lookupKey, h, hne, ih]
      · simp [lookupKey, h, ih]

/-- Reading back the key just written returns the new value. -/
theorem lookupKey_setKey_same {A : Type} (m : List (String × A)) (k : String) (v : A) :
    lookupKey (setKey m k v) k = some v := by
  unfold setKey
  by_cases h : (lookupKey m k).isSome
  · rw [if_pos h, lookupKey_map_set_same]
    cases hv : lookupKey m k
    · rw [hv] at h; simp at h
    · simp
  · rw [if_neg h, lookupKey_append]
    cases hv : lookupKey m k
    · simp [lookupKey]
    · rw [hv] at h; simp at h

/-- Writing one key leaves other lookups unchanged. -/
theorem lookupKey_setKey_other {A : Type} (m : List (String × A)) {k k2 : String} (v : A)
    (hne : k ≠ k2) :
    lookupKey (setKey m k v) k2 = lookupKey m k2 := by
  unfold setKey
  by_cases h : (lookupKey m k).isSome
  · rw [if_pos h, lookupKey_map_set_other _ _ hne]
  · rw [if_neg h, lookupKey_append]
    cases hv : lookupKey m k2 <;> simp [lookupKey, hne]

/-- The last delivered value for a key is an actual delivery. -/
theorem lastValue_mem {A : Type} {l : List (String × A)} {k : String} {v : A}
    (h : lastValue l k = some v) : (k, v) ∈ l := by
  induction l with
  | nil => cases h
  | cons p ps ih =>
      simp only [lastValue] at h
      cases hps : lastValue ps k with
      | some w =>
          rw [hps] at h
          injection h with h
          subst h
          exact List.mem_cons_of_mem _ (ih hps)
      | none =>
          rw [hps] at h
          by_cases hk : p.1 = k
          · rw [if_pos hk] at h
            obtain rfl : p.2 = v := by injection h
            subst hk
            exact List.mem_cons_self _ _
          · rw [if_neg hk] at h
            cases h

/-- A key with no delivery has no last value. -/
theorem lastValue_eq_none {A : Type} (l : List (String × A)) (k : String) :
    lastValue l k = none ↔ ∀ v, (k, v) ∉ l := by
  induction l with
  | nil => simp [lastValue]
  | cons p ps ih =>
      simp only [lastValue]
      cases hps : lastValue ps k with
      | some w =>
          simp only [reduceCtorEq, false_iff, not_forall]
          refine ⟨w, ?_⟩
          simp [List.mem_cons_of_mem _ (lastValue_mem hps)]
      | none =>
          have hnot := ih.mp hps
          by_cases hk : p.1 = k
          · simp only [if_pos hk]
            constructor
            · intro h; cases h
            · intro h
              exact absurd (by rw [← hk]; exact List.mem_cons_self p ps) (h p.2)
          · simp only [if_neg hk]
            constructor
            · intro _ v hv
              rcases List.mem_cons.mp hv with hv | hv
              · exact hk (congrArg Prod.fst hv).symm
              · exact hnot v hv
            · intro _; trivial

/-- With duplicate-free keys, the last value for a key is the unique
delivered value for it. -/
theorem lastValue_eq_some_iff {A : Type} {l : List (String × A)}
    (hnd : (keysOf l).Nodup) (k : String) (v : A) :
    lastValue l k = some v ↔ (k, v) ∈ l := by
  constructor
  · exact lastValue_mem
  · intro hmem
    induction l with
    | nil => cases hmem
    | cons p ps ih =>
        simp only [keysOf, List.map_cons, List.nodup_cons] at hnd
        rcases List.mem_cons.mp hmem with h | h
        · have hk : p.1 = k := (congrArg Prod.fst h).symm
          have hnone : lastValue ps k = none := by
            rw [lastValue_eq_none]
            intro w hw
            exact hnd.1 (hk ▸ (List.mem_map_of_mem Prod.fst hw))
          simp only [lastValue, hnone, if_pos hk]
          rw [← h]
        · have := ih hnd.2 h
          simp only [lastValue, this]

/-- Folding deliveries into an accumulator: the lookup is the last
delivered value, falling back to the accumulator. -/
theorem lookupKey_foldl_setKey {A : Type} (l : List (String × A)) (acc : List (String × A))
    (k : String) :
    lookupKey (l.foldl (fun se p => setKey se p.1 p.2) acc) k =
      match lastValue l k with
      | some v => some v
      | none => lookupKey acc k := by
  induction l generalizing acc with
  | nil => simp [lastValue]
  | cons p ps ih =>
      simp only [List.foldl_cons, lastValue]
      rw [ih]
      cases hps : lastValue ps k with
      | some w => simp
      | none =>
          by_cases hk : p.1 = k
          · rw [hk, if_pos rfl, lookupKey_setKey_same]
          · rw [if_neg hk, lookupKey_setKey_other _ _ hk]

/-- C9: the reducer is last-write-wins: for every delivery sequence, the
reduced index maps each DocumentID to the frequency map carried by its
last delivery (and to nothing if it was never delivered). -/
theorem reduce_last_write_wins (ds : List (String × DocTermFrequency)) (k : String) :
    lookupKey (ReduceDocuments ds) k = lastValue ds k := by
  unfold ReduceDocuments
  rw [lookupKey_foldl_setKey]
  cases h : lastValue ds k <;> simp [lookupKey]

/-- C8: reducing any permutation of a duplicate-free delivery multiset
yields the same mapping: every key is looked up to the same value. -/
theorem reduce_perm_invariant (l1 l2 : List (String × DocTermFrequency))
    (hperm : l1.Perm l2) (hnd : (keysOf l1).Nodup) (k : String) :
    lookupKey (ReduceDocuments l1) k = lookupKey (ReduceDocuments l2) k := by
  have hnd2 : (keysOf l2).Nodup := (hperm.map Prod.fst).nodup hnd
  unfold ReduceDocuments
  rw [lookupKey_foldl_setKey, lookupKey_foldl_setKey]
  cases h1 : lastValue l1 k with
  | some v =>
      have : (k, v) ∈ l2 := hperm.mem_iff.mp (lastValue_mem h1)
      rw [(lastValue_eq_some_iff hnd2 k v).mpr this]
  | none =>
      have : lastValue l2 k = none := by
        rw [lastValue_eq_none]
        intro v hv
        exact (lastValue_eq_none l1 k).mp h1 v (hperm.mem_iff.mpr hv)
      rw [this]

/-- The keys of the extraction results are exactly the successfully read
files, in discovery order. -/
theorem keysOf_extractAll (files : List String) (r : String → Option (List String)) :
    keysOf (extractAll files r) = files.filter (fun f => (r f).isSome) := by
  induction files with
  | nil => rfl
  | cons f fs ih =>
      cases h : r f with
      | none => simpa [extractAll, keysOf, Frequencies, h, List.filterMap_cons] using ih
      | some lines => simpa [extractAll, keysOf, Frequencies, h, List.filterMap_cons] using ih

/-- Folding deliveries with all-fresh, duplicate-free keys just appends
them to the accumulator. -/
theorem foldl_setKey_of_fresh {A : Type} :
    ∀ (l acc : List (String × A)), (∀ p ∈ l, lookupKey acc p.1 = none) →
      (keysOf l).Nodup → l.foldl (fun se p => setKey se p.1 p.2) acc = acc ++ l
  | [], acc, _, _ => by simp
  | p :: ps, acc, hfresh, hnd => by
      simp only [keysOf, List.map_cons, List.nodup_cons] at hnd
      have hpnone : lookupKey acc p.1 = none := hfresh p (List.mem_cons_self p ps)
      have hset : setKey acc p.1 p.2 = acc ++ [p] := by
        unfold setKey
        rw [if_neg (by simp [hpnone])]
      have hfresh2 : ∀ q ∈ ps, lookupKey (acc ++ [p]) q.1 = none := by
        intro q hq
        rw [lookupKey_append, hfresh q (List.mem_cons_of_mem p hq)]
        have hne : p.1 ≠ q.1 := by
          intro he
          exact hnd.1 (he ▸ List.mem_map_of_mem Prod.fst hq)
        simp [lookupKey, hne]
      simp only [List.foldl_cons, hset]
      rw [foldl_setKey_of_fresh ps (acc ++ [p]) hfresh2 hnd.2]
      simp

/-- Reducing a duplicate-free delivery sequence reproduces it. -/
theorem reduceDocuments_eq_self {l : List (String × DocTermFrequency)}
    (hnd : (keysOf l).Nodup) : ReduceDocuments l = l := by
  unfold ReduceDocuments
  rw [foldl_setKey_of_fresh l [] (fun p _ => rfl) hnd]
  simp

/-- C7: a failed read contributes nothing to the index and does not abort
the build: whatever order the surviving extraction results are delivered
in, the reduced index has one entry per successfully read file, and a
DocumentID is present exactly when its file was listed and read
successfully. -/
theorem index_excludes_failed_reads (files : List String)
    (r : String → Option (List String)) (ds : List (String × DocTermFrequency))
    (hperm : ds.Perm (extractAll files r)) (hnd : files.Nodup) :
    (ReduceDocuments ds).length = files.countP (fun f => (r f).isSome) ∧
    ∀ d, (lookupKey (ReduceDocuments ds) d).isSome ↔ (d ∈ files ∧ (r d).isSome) := by
  have hkeys := keysOf_extractAll files r
  have hnd_ex : (keysOf (extractAll files r)).Nodup := by
    rw [hkeys]; exact hnd.filter _
  have hnd_ds : (keysOf ds).Nodup := by
    exact ((hperm.map Prod.fst).nodup_iff).mpr hnd_ex
  rw [reduceDocuments_eq_self hnd_ds]
  constructor
  · rw [hperm.length_eq]
    have : (extractAll files r).length = (keysOf (extractAll files r)).length := by
      simp [keysOf]
    rw [this, hkeys, List.countP_eq_length_filter]
  · intro d
    rw [lookupKey_isSome_iff]
    have hmem : d ∈ keysOf ds ↔ d ∈ keysOf (extractAll files r) :=
      (hperm.map Prod.fst).mem_iff
    rw [hmem, hkeys, List.mem_filter]

/-- Every entry of a map after a write is the written pair or an
original entry. -/
theorem mem_setKey {A : Type} {m : List (String × A)} {k : String} {v : A} {p : String × A}
    (h : p ∈ setKey m k v) : p = (k, v) ∨ p ∈ m := by
  unfold setKey at h
  by_cases hs : (lookupKey m k).isSome
  · rw [if_pos hs] at h
    rcases List.mem_map.mp h with ⟨q, hq, hfq⟩
    by_cases hqk : q.1 = k
    · rw [if_pos hqk] at hfq
      exact Or.inl hfq.symm
    · rw [if_neg hqk] at hfq
      exact Or.inr (hfq ▸ hq)
  · rw [if_neg hs] at h
    rcases List.mem_append.mp h with h | h
    · exact Or.inr h
    · exact Or.inl (List.mem_singleton.mp h)

/-- Counting a word keeps every stored count at least 1. -/
theorem bumpWord_pos {m : DocTermFrequency} (hm : ∀ p ∈ m, 1 ≤ p.2) (w : String) :
    ∀ p ∈ bumpWord m w, 1 ≤ p.2 := by
  intro p hp
  unfold bumpWord at hp
  cases hc : lookupKey m w with
  | some count =>
      rw [hc] at hp
      rcases mem_setKey hp with h | h
      · rw [h]; exact Nat.le_add_left 1 count
      · exact hm p h
  | none =>
      rw [hc] at hp
      rcases mem_setKey hp with h | h
      · rw [h]
      · exact hm p h

/-- The counting loop keeps every stored count at least 1. -/
theorem foldl_bumpWord_pos :
    ∀ (ws : List String) (acc : DocTermFrequency), (∀ p ∈ acc, 1 ≤ p.2) →
      ∀ p ∈ ws.foldl bumpWord acc, 1 ≤ p.2
  | [], acc, hacc => hacc
  | w :: ws, acc, hacc => by
      simp only [List.foldl_cons]
      exact foldl_bumpWord_pos ws (bumpWord acc w) (bumpWord_pos hacc w)

/-- C10: every DocTermFrequency produced by the extraction of a document
maps each stored term to a count of at least 1, for any input lines. -/
theorem wordCounts_pos (lines : List String) (k : String) (v : Nat)
    (h : lookupKey (wordCounts lines) k = some v) : 1 ≤ v := by
  have := foldl_bumpWord_pos (lines.flatMap tokenize) [] (by intro p hp; cases hp)
  exact this (k, v) (lookupKey_mem h)

/-- Witness for C10 on the document with content "a a b". -/
theorem wordCounts_pos_witness :
    lookupKey (wordCounts ["a a b"]) "a" = some 2 ∧ 1 ≤ 2 :=
  ⟨by decide, wordCounts_pos ["a a b"] "a" 2 (by decide)⟩

/-- C3: for a document of the index and a term it contains, the term
frequency is the stored occurrence count divided by the sum of all counts
stored for the document. -/
theorem termFrequency_eq_count_div_total (se : SearchEngine) (d t : String)
    (terms : DocTermFrequency) (c : Nat) (h1 : lookupKey se d = some terms)
    (h2 : lookupKey terms t = some c) :
    TermFrequency se t d = .ok ((c : ℚ) / (totalCount terms : ℚ)) := by
  simp [TermFrequency, h1, h2]

/-- Witness for C3: the document with content "a a b" has tf(a) = 2/3 and
tf(b) = 1/3. -/
theorem termFrequency_eq_count_div_total_witness :
    lookupKey (wordCounts ["a a b"]) "a" = some 2 ∧
    TermFrequency [("d", wordCounts ["a a b"])] "a" "d" = .ok (2 / 3) ∧
    TermFrequency [("d", wordCounts ["a a b"])] "b" "d" = .ok (1 / 3) := by
  have htot : totalCount (wordCounts ["a a b"]) = 3 := by decide
  refine ⟨by decide, ?_, ?_⟩
  · rw [termFrequency_eq_count_div_total _ "d" "a" (wordCounts ["a a b"]) 2 (by decide) (by decide)]
    rw [htot]
    norm_num
  · rw [termFrequency_eq_count_div_total _ "d" "b" (wordCounts ["a a b"]) 1 (by decide) (by decide)]
    rw [htot]
    norm_num

/-- Witness for C7: three files of which "fb" is unreadable give an index
with exactly two entries and no entry for "fb". -/
theorem index_excludes_failed_reads_witness :
    (["fa", "fb", "fc"] : List String).Nodup ∧
    (ReduceDocuments (extractAll ["fa", "fb", "fc"]
        (fun f => if f = "fb" then none else some ["cat dog"]))).length = 2 ∧
    ¬ (lookupKey (ReduceDocuments (extractAll ["fa", "fb", "fc"]
        (fun f => if f = "fb" then none else some ["cat dog"]))) "fb").isSome := by
  have h := index_excludes_failed_reads ["fa", "fb", "fc"]
    (fun f => if f = "fb" then none else some ["cat dog"]) _ (List.Perm.refl _) (by decide)
  refine ⟨by decide, h.1.trans (by decide), ?_⟩
  rw [h.2 "fb"]
  decide

/-- Witness for C8: the two orders of a two-delivery build agree. -/
theorem reduce_perm_invariant_witness :
    (keysOf [("da", [("x", 1)]), ("db", [("y", 2)])]).Nodup ∧
    lookupKey (ReduceDocuments [("da", [("x", 1)]), ("db", [("y", 2)])]) "da" =
      lookupKey (ReduceDocuments [("db", [("y", 2)]), ("da", [("x", 1)])]) "da" :=
  ⟨by decide, reduce_perm_invariant _ _ ((List.reverse_perm _).symm) (by decide) "da"⟩

/-- Every character collected by the letter scanner is a letter. -/
theorem takeLetters_all_letters : ∀ (cs : List Char), ∀ c ∈ (takeLetters cs).1,
    isLetterChar c = true
  | [], c, h => by cases h
  | d :: ds, c, h => by
      by_cases hd : isLetterChar d
      · simp only [takeLetters, if_pos hd] at h
        rcases List.mem_cons.mp h with h | h
        · rw [h]; exact hd
        · exact takeLetters_all_letters ds c h
      · simp only [takeLetters, if_neg hd] at h
        cases h

/-- The letter scanner starting on a letter collects a nonempty prefix. -/
theorem takeLetters_cons_letter {c : Char} (cs : List Char) (h : isLetterChar c = true) :
    takeLetters (c :: cs) = (c :: (takeLetters cs).1, (takeLetters cs).2) := by
  simp [takeLetters, h]

/-- The group scanner always produces a well-shaped word tail. -/
theorem wordTail_shape : ∀ (fuel : Nat) (cs : List Char), TailShape (wordTail fuel cs).1
  | 0, _ => TailShape.nil
  | fuel + 1, [] => TailShape.nil
  | fuel + 1, [_] => TailShape.nil
  | fuel + 1, s :: c :: rest => by
      by_cases h : isSepChar s && isLetterChar c
      · simp only [wordTail, if_pos h]
        obtain ⟨hs, hc⟩ : isSepChar s = true ∧ isLetterChar c = true := by
          simpa using h
        rw [takeLetters_cons_letter rest hc]
        exact TailShape.seg s (c :: (takeLetters rest).1) _ hs (by simp)
          (by
            intro x hx
            rcases List.mem_cons.mp hx with hx | hx
            · rw [hx]; exact hc
            · exact takeLetters_all_letters rest x hx)
          (wordTail_shape fuel _)
      · simp only [wordTail, if_neg h]
        exact TailShape.nil

/-- Every raw token produced by the scanner matches the word pattern. -/
theorem tokenizeAux_shape : ∀ (fuel : Nat) (cs : List Char) (w : List Char),
    w ∈ tokenizeAux fuel cs → WordShape w
  | 0, _, w, h => by cases h
  | _ + 1, [], w, h => by cases h
  | fuel + 1, c :: cs, w, h => by
      by_cases hc : isLetterChar c
      · simp only [tokenizeAux, if_pos hc] at h
        rcases List.mem_cons.mp h with h | h
        · rw [takeLetters_cons_letter cs hc] at h
          exact ⟨c :: (takeLetters cs).1, (wordTail fuel (takeLetters cs).2).1,
            by simp,
            fun x hx => by
              rcases List.mem_cons.mp hx with hx | hx
              · rw [hx]; exact hc
              · exact takeLetters_all_letters cs x hx,
            wordTail_shape fuel _, h⟩
        · exact tokenizeAux_shape fuel _ w h
      · simp only [tokenizeAux, if_neg hc] at h
        exact tokenizeAux_shape fuel cs w h

/-- C5: tokenization of a line produces only (lower-cased images of)
well-shaped word-pattern matches, in the order found and without
deduplication; on the particular inputs of the spec it produces exactly
the expected sequences, and a line without any match produces the empty
sequence. -/
theorem tokenize_matches_word_pattern :
    (∀ (line : String), ∀ w ∈ findWords line, WordShape w) ∧
    (∀ line : String, tokenize line = (findWords line).map lowerWord) ∧
    tokenize (String.mk ['D', 'o', 'n', apoChar, 't', ' ',
        's', 't', 'o', 'p', '-', 'g', 'o', '!'])
      = [String.mk ['d', 'o', 'n', apoChar, 't'], "stop-go"] ∧
    tokenize "?!, 123." = [] ∧
    tokenize "Cat cat CAT" = ["cat", "cat", "cat"] :=
  ⟨fun line w h => tokenizeAux_shape _ _ w h, fun _ => rfl,
    by decide, by decide, by decide⟩

/-- Witness for C5 on the raw match of the first word of the spec's
tokenization example. -/
theorem tokenize_matches_word_pattern_witness :
    ['D', 'o', 'n', apoChar, 't'] ∈
      findWords (String.mk ['D', 'o', 'n', apoChar, 't', ' ',
        's', 't', 'o', 'p', '-', 'g', 'o', '!']) ∧
    WordShape ['D', 'o', 'n', apoChar, 't'] :=
  ⟨by decide, tokenize_matches_word_pattern.1
    (String.mk ['D', 'o', 'n', apoChar, 't', ' ',
      's', 't', 'o', 'p', '-', 'g', 'o', '!'])
    ['D', 'o', 'n', apoChar, 't'] (by decide)⟩

/-- Lexicographic comparison is asymmetric. -/
theorem strLtL_asymm : ∀ {x y : List Char}, strLtL x y = true → strLtL y x = false
  | [], [], h => by simp [strLtL] at h
  | [], _ :: _, _ => by simp [strLtL]
  | _ :: _, [], h => by simp [strLtL] at h
  | a :: as, b :: bs, h => by
      by_cases hab : a < b
      · have hba : ¬ b < a := lt_asymm hab
        simp [strLtL, hba, hab]
      · by_cases hba : b < a
        · simp [strLtL, hab, hba] at h
        · simp only [strLtL, if_neg hab, if_neg hba] at h
          simp only [strLtL, if_neg hba, if_neg hab]
          exact strLtL_asymm h

/-- Two lists that are not lexicographically comparable are equal. -/
theorem strLtL_eq_of_incomp : ∀ {x y : List Char}, strLtL x y = false →
    strLtL y x = false → x = y
  | [], [], _, _ => rfl
  | [], _ :: _, h, _ => by simp [strLtL] at h
  | _ :: _, [], _, h2 => by simp [strLtL] at h2
  | a :: as, b :: bs, h, h2 => by
      by_cases hab : a < b
      · simp [strLtL, hab] at h
      · by_cases hba : b < a
        · simp [strLtL, hba] at h2
        · have hcc : a = b := le_antisymm (not_lt.mp hba) (not_lt.mp hab)
          simp only [strLtL, if_neg hab, if_neg hba] at h
          simp only [strLtL, if_neg hba, if_neg hab] at h2
          rw [hcc, strLtL_eq_of_incomp h h2]

/-- Lexicographic comparison is transitive. -/
theorem strLtL_trans : ∀ {x y z : List Char}, strLtL x y = true →
    strLtL y z = true → strLtL x z = true
  | [], [], _, h, _ => by simp [strLtL] at h
  | [], _ :: _, [], _, h2 => by simp [strLtL] at h2
  | [], _ :: _, _ :: _, _, _ => by simp [strLtL]
  | _ :: _, [], _, h, _ => by simp [strLtL] at h
  | _ :: _, _ :: _, [], _, h2 => by simp [strLtL] at h2
  | a :: as, b :: bs, c :: cs, h, h2 => by
      by_cases hab : a < b
      · by_cases hbc : b < c
        · simp [strLtL, lt_trans hab hbc]
        · by_cases hcb : c < b
          · simp [strLtL, hbc, hcb] at h2
          · have hbceq : b = c := le_antisymm (not_lt.mp hcb) (not_lt.mp hbc)
            have : a < c := by rw [← hbceq]; exact hab
            simp [strLtL, this]
      · by_cases hba : b < a
        · simp [strLtL, hab, hba] at h
        · have habeq : a = b := le_antisymm (not_lt.mp hba) (not_lt.mp hab)
          simp only [strLtL, if_neg hab, if_neg hba] at h
          by_cases hbc : b < c
          · have : a < c := by rw [habeq]; exact hbc
            simp [strLtL, this]
          · by_cases hcb : c < b
            · simp [strLtL, hbc, hcb] at h2
            · simp only [strLtL, if_neg hbc, if_neg hcb] at h2
              have hac : ¬ a < c := by rw [habeq]; exact hbc
              have hca : ¬ c < a := by rw [habeq]; exact hcb
              simp only [strLtL, if_neg hac, if_neg hca]
              exact strLtL_trans h h2

/-- String comparison is asymmetric. -/
theorem strLt_asymm {a b : String} (h : strLt a b = true) : strLt b a = false :=
  strLtL_asymm h

/-- Incomparable strings are equal. -/
theorem strLt_eq_of_incomp {a b : String} (h1 : strLt a b = false)
    (h2 : strLt b a = false) : a = b :=
  String.ext (strLtL_eq_of_incomp h1 h2)

/-- String order totality. -/
theorem strLE_total (a b : String) : strLE a b = true ∨ strLE b a = true := by
  cases hb : strLt b a with
  | false => left; unfold strLE; rw [hb]; rfl
  | true => right; unfold strLE; rw [strLt_asymm hb]; rfl

/-- String order transitivity. -/
theorem strLE_trans {a b c : String} (h1 : strLE a b = true)
    (h2 : strLE b c = true) : strLE a c = true := by
  unfold strLE at h1 h2 ⊢
  rw [Bool.not_eq_true'] at h1 h2 ⊢
  cases hca : strLt c a with
  | false => rfl
  | true =>
      exfalso
      cases hab : strLt a b with
      | true =>
          have : strLtL c.data b.data = true := strLtL_trans hca hab
          rw [show strLtL c.data b.data = strLt c b from rfl, h2] at this
          cases this
      | false =>
          have hba : a = b := strLt_eq_of_incomp hab h1
          rw [hba, h2] at hca
          cases hca

/-- Strict order from weak order and distinctness. -/
theorem strLt_of_strLE_of_ne {a b : String} (h : strLE a b = true) (hne : a ≠ b) :
    strLt a b = true := by
  unfold strLE at h
  rw [Bool.not_eq_true'] at h
  cases hab : strLt a b with
  | true => rfl
  | false => exact absurd (strLt_eq_of_incomp hab h) hne

/-- Inserting an element produces a permutation of consing it. -/
theorem insertLE_perm {α : Type} (le : α → α → Bool) (x : α) :
    ∀ l : List α, (insertLE le x l).Perm (x :: l)
  | [] => List.Perm.refl _
  | y :: ys => by
      unfold insertLE
      by_cases h : le x y = true
      · rw [if_pos h]
      · rw [if_neg h]
        exact ((insertLE_perm le x ys).cons y).trans (List.Perm.swap x y ys)

/-- The insertion sort permutes its input. -/
theorem sortLE_perm {α : Type} (le : α → α → Bool) :
    ∀ l : List α, (sortLE le l).Perm l
  | [] => List.Perm.refl _
  | x :: xs => (insertLE_perm le x (sortLE le xs)).trans ((sortLE_perm le xs).cons x)

/-- Inserting into an le-sorted list keeps it le-sorted, for a total
transitive comparator. -/
theorem insertLE_pairwise {α : Type} {le : α → α → Bool}
    (htrans : ∀ a b c, le a b = true → le b c = true → le a c = true)
    (htot : ∀ a b, le a b = true ∨ le b a = true) (x : α) :
    ∀ l : List α, l.Pairwise (fun a b => le a b = true) →
      (insertLE le x l).Pairwise (fun a b => le a b = true)
  | [], _ => by simp [insertLE]
  | y :: ys, h => by
      rcases List.pairwise_cons.mp h with ⟨hy, hys⟩
      unfold insertLE
      by_cases hxy : le x y = true
      · rw [if_pos hxy]
        refine List.pairwise_cons.mpr ⟨?_, h⟩
        intro b hb
        rcases List.mem_cons.mp hb with hb | hb
        · rw [hb]; exact hxy
        · exact htrans x y b hxy (hy b hb)
      · rw [if_neg hxy]
        refine List.pairwise_cons.mpr ⟨?_, insertLE_pairwise htrans htot x ys hys⟩
        intro b hb
        rcases List.mem_cons.mp ((insertLE_perm le x ys).mem_iff.mp hb) with hb' | hb'
        · rw [hb']
          rcases htot x y with h' | h'
          · exact absurd h' hxy
          · exact h'
        · exact hy b hb'

/-- The insertion sort produces an le-sorted list, for a total transitive
comparator. -/
theorem sortLE_pairwise {α : Type} {le : α → α → Bool}
    (htrans : ∀ a b c, le a b = true → le b c = true → le a c = true)
    (htot : ∀ a b, le a b = true ∨ le b a = true) :
    ∀ l : List α, (sortLE le l).Pairwise (fun a b => le a b = true)
  | [] => by simp [sortLE]
  | x :: xs => insertLE_pairwise htrans htot x _ (sortLE_pairwise htrans htot xs)

/-- Sorting a two-element list. -/
theorem sortLE_pair {α : Type} (le : α → α → Bool) (a b : α) :
    sortLE le [a, b] = if le a b = true then [a, b] else [b, a] := by
  by_cases h : le a b = true <;> simp [sortLE, insertLE, h]

/-- The RelevanceLookup comparator is total. -/
theorem tfidfLE_total (a b : String × ℝ) : tfidfLE a b = true ∨ tfidfLE b a = true := by
  unfold tfidfLE
  rcases lt_trichotomy a.2 b.2 with h | h | h
  · left; rw [if_pos h]
  · have h1 : ¬ a.2 < b.2 := by rw [h]; exact lt_irrefl _
    have h2 : ¬ b.2 < a.2 := by rw [h]; exact lt_irrefl _
    rw [if_neg h1, if_neg h2, if_neg h2, if_neg h1]
    exact strLE_total a.1 b.1
  · right; rw [if_pos h]

/-- The RelevanceLookup comparator is transitive. -/
theorem tfidfLE_trans (a b c : String × ℝ) (h1 : tfidfLE a b = true)
    (h2 : tfidfLE b c = true) : tfidfLE a c = true := by
  unfold tfidfLE at h1 h2 ⊢
  by_cases hab : a.2 < b.2
  · by_cases hbc : b.2 < c.2
    · rw [if_pos (lt_trans hab hbc)]
    · by_cases hcb : c.2 < b.2
      · rw [if_neg hbc, if_pos hcb] at h2; cases h2
      · have hbceq : b.2 = c.2 := le_antisymm (not_lt.mp hcb) (not_lt.mp hbc)
        have : a.2 < c.2 := by rw [← hbceq]; exact hab
        rw [if_pos this]
  · by_cases hba : b.2 < a.2
    · rw [if_neg hab, if_pos hba] at h1; cases h1
    · have habeq : a.2 = b.2 := le_antisymm (not_lt.mp hba) (not_lt.mp hab)
      rw [if_neg hab, if_neg hba] at h1
      by_cases hbc : b.2 < c.2
      · have : a.2 < c.2 := by rw [habeq]; exact hbc
        rw [if_pos this]
      · by_cases hcb : c.2 < b.2
        · rw [if_neg hbc, if_pos hcb] at h2; cases h2
        · have hbceq : b.2 = c.2 := le_antisymm (not_lt.mp hcb) (not_lt.mp hbc)
          rw [if_neg hbc, if_neg hcb] at h2
          have hac : ¬ a.2 < c.2 := by rw [habeq, hbceq]; exact lt_irrefl _
          have hca : ¬ c.2 < a.2 := by rw [habeq, hbceq]; exact lt_irrefl _
          rw [if_neg hac, if_neg hca]
          exact strLE_trans h1 h2

/-- TermFrequency succeeds on every document present in the index. -/
theorem termFrequency_ok {se : SearchEngine} {t d : String}
    (h : (lookupKey se d).isSome) : ∃ q, TermFrequency se t d = .ok q := by
  cases hd : lookupKey se d with
  | none => rw [hd] at h; cases h
  | some terms =>
      unfold TermFrequency
      simp only [hd]
      cases ht : lookupKey terms t with
      | none => exact ⟨0, by simp [ht]⟩
      | some c => exact ⟨(c : ℚ) / (totalCount terms : ℚ), by simp [ht]⟩

/-- CountIdf succeeds on every document present in the index. -/
theorem countIdf_ok {se : SearchEngine} {t d : String}
    (h : (lookupKey se d).isSome) : ∃ x, CountIdf se t d = .ok x := by
  obtain ⟨q, hq⟩ := termFrequency_ok (t := t) h
  unfold CountIdf
  rw [hq]
  exact ⟨_, rfl⟩

/-- Every candidate returned by IndexLookup is a document of the index. -/
theorem mem_IndexLookup {se : SearchEngine} {t d : String}
    (h : d ∈ IndexLookup se t) : (lookupKey se d).isSome := by
  unfold IndexLookup at h
  rcases List.mem_map.mp h with ⟨p, hp, hfp⟩
  rw [← hfp]
  exact lookupKey_isSome_of_mem (show (p.1, p.2) ∈ se from (List.mem_filter.mp hp).1)

/-- The scoring loop succeeds when every candidate is in the index, and
scores the candidates in order. -/
theorem scoreDocs_ok {se : SearchEngine} {t : String} :
    ∀ (ids : List String), (∀ d ∈ ids, (lookupKey se d).isSome) →
      ∃ l, scoreDocs se t ids = .ok l ∧ l.map Prod.fst = ids ∧
        ∀ p ∈ l, CountIdf se t p.1 = .ok p.2
  | [], _ => ⟨[], rfl, rfl, by intro p hp; cases hp⟩
  | d :: ds, h => by
      obtain ⟨x, hx⟩ := countIdf_ok (t := t) (h d (List.mem_cons_self d ds))
      obtain ⟨l, hl, hmap, hall⟩ :=
        scoreDocs_ok ds (fun e he => h e (List.mem_cons_of_mem d he))
      refine ⟨(d, x) :: l, ?_, ?_, ?_⟩
      · unfold scoreDocs
        rw [hx, hl]
      · simp [hmap]
      · intro p hp
        rcases List.mem_cons.mp hp with hp | hp
        · rw [hp]; exact hx
        · exact hall p hp

/-- Counterexample for C2: in the one-document index {d ↦ {x ↦ 1}} the
term "q" is present in zero documents, yet RelevanceLookup succeeds with
the empty list instead of returning an error. -/
theorem relevanceLookup_unknown_term_no_error :
    RelevanceLookup [("d", [("x", 1)])] "q" = .ok [] := by
  simp [RelevanceLookup, IndexLookup, lookupKey, scoreDocs, sortLE]

/-- C2 (amended): ranking a term present in zero documents returns the
empty list without an error; indeed the ranking operation never returns
an error; an error arises exactly when TermFrequency is asked about a
DocumentID absent from the index. -/
theorem ranker_error_characterization :
    (∀ (se : SearchEngine) (t : String),
        (∀ p ∈ se, lookupKey p.2 t = none) → RelevanceLookup se t = .ok []) ∧
    (∀ (se : SearchEngine) (t : String), ∃ l, RelevanceLookup se t = .ok l) ∧
    (∀ (se : SearchEngine) (t d : String),
        (∃ e, TermFrequency se t d = .error e) ↔ lookupKey se d = none) := by
  refine ⟨?_, ?_, ?_⟩
  · intro se t h
    have hil : IndexLookup se t = [] := by
      unfold IndexLookup
      rw [List.filter_eq_nil_iff.mpr]
      · rfl
      · intro p hp
        simp [h p hp]
    unfold RelevanceLookup
    rw [hil]
    simp [scoreDocs, sortLE]
  · intro se t
    obtain ⟨l, hl, -, -⟩ :=
      scoreDocs_ok (IndexLookup se t) (fun d hd => mem_IndexLookup hd)
    unfold RelevanceLookup
    rw [hl]
    exact ⟨_, rfl⟩
  · intro se t d
    constructor
    · rintro ⟨e, he⟩
      cases hd : lookupKey se d with
      | none => rfl
      | some terms =>
          obtain ⟨q, hq⟩ := termFrequency_ok (t := t) (by rw [hd]; rfl)
          rw [hq] at he
          cases he
    · intro hd
      exact ⟨"tried to determine the TermFrequency for a document that does not exist",
        by unfold TermFrequency; simp only [hd]⟩

/-- Witness for C2 on the one-document index {d ↦ {x ↦ 1}}. -/
theorem ranker_error_characterization_witness :
    (∀ p ∈ ([("d", [("x", 1)])] : SearchEngine), lookupKey p.2 "q" = none) ∧
    RelevanceLookup [("d", [("x", 1)])] "q" = .ok [] ∧
    ((∃ e, TermFrequency [("d", [("x", 1)])] "q" "missing" = .error e) ↔
      lookupKey ([("d", [("x", 1)])] : SearchEngine) "missing" = none) :=
  ⟨by decide, ranker_error_characterization.1 _ "q" (by decide),
    ranker_error_characterization.2.2 _ "q" "missing"⟩

/-- C4: the inverse document frequency is the natural logarithm of the
total number of documents of the index divided by the number of documents
of the full index whose term map contains the term; on the spec's
four-document example with "cat" in exactly two documents it equals
ln 2. -/
theorem idf_over_full_index :
    (∀ (se : SearchEngine) (t : String), 0 < numDocsContaining se t →
        InverseDocumentFrequency se t =
          Real.log ((se.length : ℝ) / ((containingDocs se t).length : ℝ))) ∧
    InverseDocumentFrequency
        [("d1", [("cat", 1)]), ("d2", [("cat", 2), ("dog", 1)]),
         ("d3", [("dog", 1)]), ("d4", [("fish", 1)])] "cat" = Real.log 2 := by
  constructor
  · intro se t _
    unfold InverseDocumentFrequency numDocsContaining containingDocs
    rw [List.countP_eq_length_filter]
  · unfold InverseDocumentFrequency
    rw [show numDocsContaining
        [("d1", [("cat", 1)]), ("d2", [("cat", 2), ("dog", 1)]),
         ("d3", [("dog", 1)]), ("d4", [("fish", 1)])] "cat" = 2 from by decide]
    norm_num

/-- Witness for C4 on the four-document example. -/
theorem idf_over_full_index_witness :
    0 < numDocsContaining
        [("d1", [("cat", 1)]), ("d2", [("cat", 2), ("dog", 1)]),
         ("d3", [("dog", 1)]), ("d4", [("fish", 1)])] "cat" ∧
    InverseDocumentFrequency
        [("d1", [("cat", 1)]), ("d2", [("cat", 2), ("dog", 1)]),
         ("d3", [("dog", 1)]), ("d4", [("fish", 1)])] "cat" =
      Real.log ((([("d1", [("cat", 1)]), ("d2", [("cat", 2), ("dog", 1)]),
         ("d3", [("dog", 1)]), ("d4", [("fish", 1)])] : SearchEngine).length : ℝ) /
        ((containingDocs
          [("d1", [("cat", 1)]), ("d2", [("cat", 2), ("dog", 1)]),
           ("d3", [("dog", 1)]), ("d4", [("fish", 1)])] "cat").length : ℝ)) :=
  ⟨by decide, idf_over_full_index.1 _ "cat" (by decide)⟩

/-- C6: in a ranking result over an index with distinct DocumentIDs, any
two documents with equal tf-idf score for the query term appear in
strictly ascending DocumentID order. -/
theorem rank_ties_ascending_docID (se : SearchEngine) (t : String) (l : List String)
    (hnd : (keysOf se).Nodup) (h : RelevanceLookup se t = .ok l) :
    l.Pairwise (fun a b => CountIdf se t a = CountIdf se t b → strLt a b = true) := by
  obtain ⟨docs, hdocs, hmap, hall⟩ :=
    scoreDocs_ok (IndexLookup se t) (fun d hd => mem_IndexLookup hd)
  unfold RelevanceLookup at h
  rw [hdocs] at h
  injection h with h
  subst h
  have hnd_il : (IndexLookup se t).Nodup := by
    unfold IndexLookup
    exact List.Nodup.sublist (List.Sublist.map Prod.fst (List.filter_sublist se)) hnd
  have hperm : (sortLE tfidfLE docs).Perm docs := sortLE_perm _ docs
  have hl_nodup : ((sortLE tfidfLE docs).map Prod.fst).Nodup := by
    have hp2 : ((sortLE tfidfLE docs).map Prod.fst).Perm (IndexLookup se t) := by
      rw [← hmap]
      exact hperm.map Prod.fst
    exact hp2.nodup_iff.mpr hnd_il
  have hsorted := sortLE_pairwise tfidfLE_trans tfidfLE_total docs
  have hne : (sortLE tfidfLE docs).Pairwise (fun p q => p.1 ≠ q.1) :=
    List.pairwise_map.mp hl_nodup
  have hscore : ∀ p ∈ sortLE tfidfLE docs, CountIdf se t p.1 = .ok p.2 :=
    fun p hp => hall p (hperm.mem_iff.mp hp)
  rw [List.pairwise_map]
  refine List.Pairwise.imp_of_mem ?_ (hsorted.and hne)
  intro p q hp hq hpq hceq
  have h1 := hscore p hp
  have h2 := hscore q hq
  rw [h1, h2] at hceq
  have heq2 : p.2 = q.2 := by injection hceq
  have hle : strLE p.1 q.1 = true := by
    have hb := hpq.1
    unfold tfidfLE at hb
    rw [if_neg (by rw [heq2]; exact lt_irrefl _),
      if_neg (by rw [heq2]; exact lt_irrefl _)] at hb
    exact hb
  exact strLt_of_strLE_of_ne hle hpq.2

/-- Witness for C6: two documents with identical tf-idf score (both
contain only the query term, idf = ln 1 = 0) are ranked in ascending
DocumentID order. -/
theorem rank_ties_ascending_docID_witness :
    (keysOf [("a", [("t", 1)]), ("b", [("t", 1)])]).Nodup ∧
    (["a", "b"] : List String).Pairwise
      (fun x y => CountIdf [("a", [("t", 1)]), ("b", [("t", 1)])] "t" x =
        CountIdf [("a", [("t", 1)]), ("b", [("t", 1)])] "t" y → strLt x y = true) := by
  have hidf : InverseDocumentFrequency [("a", [("t", 1)]), ("b", [("t", 1)])] "t" = 0 := by
    unfold InverseDocumentFrequency
    rw [show numDocsContaining [("a", [("t", 1)]), ("b", [("t", 1)])] "t" = 2 from by decide]
    norm_num
  have htfa : TermFrequency [("a", [("t", 1)]), ("b", [("t", 1)])] "t" "a" = .ok 1 := by
    norm_num [TermFrequency, lookupKey, totalCount]
  have htfb : TermFrequency [("a", [("t", 1)]), ("b", [("t", 1)])] "t" "b" = .ok 1 := by
    norm_num [TermFrequency, lookupKey, totalCount]
  have hca : CountIdf [("a", [("t", 1)]), ("b", [("t", 1)])] "t" "a" = .ok 0 := by
    unfold CountIdf
    rw [htfa, hidf]
    norm_num
  have hcb : CountIdf [("a", [("t", 1)]), ("b", [("t", 1)])] "t" "b" = .ok 0 := by
    unfold CountIdf
    rw [htfb, hidf]
    norm_num
  refine ⟨by decide, rank_ties_ascending_docID _ "t" _ (by decide) ?_⟩
  unfold RelevanceLookup
  rw [show IndexLookup [("a", [("t", 1)]), ("b", [("t", 1)])] "t" = ["a", "b"] from by decide]
  unfold scoreDocs
  rw [hca]
  unfold scoreDocs
  rw [hcb]
  unfold scoreDocs
  show Except.ok (List.map Prod.fst (sortLE tfidfLE [("a", (0:ℝ)), ("b", (0:ℝ))])) = _
  rw [sortLE_pair]
  rw [if_pos (show tfidfLE ("a", (0:ℝ)) ("b", (0:ℝ)) = true from by
    unfold tfidfLE
    rw [if_neg (lt_irrefl (0:ℝ)), if_neg (lt_irrefl (0:ℝ))]
    decide)]
  rfl

/-- C1 evidence: on a three-document index where document "a" has a
strictly higher tf-idf score for "t" than document "b", RelevanceLookup
returns ["b", "a"] — ascending score order, the least relevant document
first — although its own documentation promises most-relevant-first. -/
theorem relevanceLookup_returns_least_relevant_first :
    RelevanceLookup [("a", [("t", 1), ("u", 1)]), ("b", [("t", 1), ("u", 1), ("v", 1)]),
        ("c", [("u", 1)])] "t" = .ok ["b", "a"] ∧
    ∃ x y : ℝ,
      CountIdf [("a", [("t", 1), ("u", 1)]), ("b", [("t", 1), ("u", 1), ("v", 1)]),
        ("c", [("u", 1)])] "t" "a" = .ok x ∧
      CountIdf [("a", [("t", 1), ("u", 1)]), ("b", [("t", 1), ("u", 1), ("v", 1)]),
        ("c", [("u", 1)])] "t" "b" = .ok y ∧ y < x := by
  have hidf : InverseDocumentFrequency
      [("a", [("t", 1), ("u", 1)]), ("b", [("t", 1), ("u", 1), ("v", 1)]),
        ("c", [("u", 1)])] "t" = Real.log ((3:ℝ)/2) := by
    unfold InverseDocumentFrequency
    rw [show numDocsContaining
        [("a", [("t", 1), ("u", 1)]), ("b", [("t", 1), ("u", 1), ("v", 1)]),
          ("c", [("u", 1)])] "t" = 2 from by decide]
    norm_num
  have htfa : TermFrequency
      [("a", [("t", 1), ("u", 1)]), ("b", [("t", 1), ("u", 1), ("v", 1)]),
        ("c", [("u", 1)])] "t" "a" = .ok (1/2) := by
    norm_num [TermFrequency, lookupKey, totalCount]
  have htfb : TermFrequency
      [("a", [("t", 1), ("u", 1)]), ("b", [("t", 1), ("u", 1), ("v", 1)]),
        ("c", [("u", 1)])] "t" "b" = .ok (1/3) := by
    unfold TermFrequency
    simp only [show lookupKey
        [("a", [("t", 1), ("u", 1)]), ("b", [("t", 1), ("u", 1), ("v", 1)]),
          ("c", [("u", 1)])] "b" = some [("t", 1), ("u", 1), ("v", 1)] from by decide,
      show lookupKey [("t", 1), ("u", 1), ("v", 1)] "t" = some 1 from by decide]
    norm_num [totalCount]
  have hca : CountIdf
      [("a", [("t", 1), ("u", 1)]), ("b", [("t", 1), ("u", 1), ("v", 1)]),
        ("c", [("u", 1)])] "t" "a" = .ok ((1/2 : ℝ) * Real.log ((3:ℝ)/2)) := by
    unfold CountIdf
    rw [htfa, hidf]
    norm_num
  have hcb : CountIdf
      [("a", [("t", 1), ("u", 1)]), ("b", [("t", 1), ("u", 1), ("v", 1)]),
        ("c", [("u", 1)])] "t" "b" = .ok ((1/3 : ℝ) * Real.log ((3:ℝ)/2)) := by
    unfold CountIdf
    rw [htfb, hidf]
    norm_num
  have hlt : (1/3 : ℝ) * Real.log ((3:ℝ)/2) < (1/2 : ℝ) * Real.log ((3:ℝ)/2) :=
    mul_lt_mul_of_pos_right (by norm_num) (Real.log_pos (by norm_num))
  have hcmp : tfidfLE ("a", (1/2 : ℝ) * Real.log ((3:ℝ)/2))
      ("b", (1/3 : ℝ) * Real.log ((3:ℝ)/2)) = false := by
    unfold tfidfLE
    rw [if_neg (not_lt_of_gt hlt), if_pos hlt]
  refine ⟨?_, ⟨_, _, hca, hcb, hlt⟩⟩
  unfold RelevanceLookup
  rw [show IndexLookup
      [("a", [("t", 1), ("u", 1)]), ("b", [("t", 1), ("u", 1), ("v", 1)]),
        ("c", [("u", 1)])] "t" = ["a", "b"] from by decide]
  unfold scoreDocs
  rw [hca]
  unfold scoreDocs
  rw [hcb]
  unfold scoreDocs
  show Except.ok (List.map Prod.fst (sortLE tfidfLE
    [("a", (1/2 : ℝ) * Real.log ((3:ℝ)/2)), ("b", (1/3 : ℝ) * Real.log ((3:ℝ)/2))])) = _
  rw [sortLE_pair]
  rw [if_neg (by rw [hcmp]; exact Bool.false_ne_true)]
  rfl
